import Mathlib

/-!
Shallow embedding of the matching engine of `src/main.py`:
the `Inventory` index, the `Matcher` static methods
(`manufacturer_match`, `product_name_match`, `find_match`) and the
reconciliation driver loop of the `__main__` block.

Modelling conventions:
* Python strings are Lean `String`s; character-level work happens on
  `String.data : List Char`.
* The regular expressions built by the code are used on two shapes only:
  a manufacturer name passed verbatim to `re.match` with `IGNORECASE`,
  and the product-name pattern `(KW1){1}.*(KW2){1}.*...` (each `KWi` a
  keyword of the product name, `re.match`, `IGNORECASE`).  We embed the
  semantics of these patterns for pattern-safe inputs (no characters
  that are metacharacters of the `re` language); theorems that quantify
  over all inputs carry that safety side condition.  `re.IGNORECASE`
  folding is modelled by `Char.toUpper`, and `.*` matches any run of
  characters other than a newline (Python `.` does not match `'\n'`
  without `DOTALL`).
* Python dicts are association lists in key-insertion order; assignment
  to an existing key updates the value in place, a new key is appended.
-/

/-- Characters that the `re` pattern language treats literally
(outside character classes): everything except its metacharacters. -/
def regexLiteralChar (c : Char) : Bool :=
  !(['.', '^', '$', '*', '+', '?', '{', '}', '[', ']', '(', ')', '|', '\\'].contains c)

/-- A string is pattern-safe when every character of it is literal for
the `re` pattern language. -/
def regexSafeStr (s : String) : Bool :=
  s.data.all regexLiteralChar

/-- Case-insensitive anchored literal match: `startsWithCI pat s` holds
when the first `pat.length` characters of `s` equal `pat` up to
`Char.toUpper` folding.  This is `re.match(pat, s, re.IGNORECASE)`
restricted to a pattern-safe `pat`. -/
def startsWithCI : List Char → List Char → Bool
  | [], _ => true
  | _ :: _, [] => false
  | k :: ks, c :: cs => (Char.toUpper k == Char.toUpper c) && startsWithCI ks cs

/-- Fuel-indexed backtracking matcher for the pattern
`.*(kw1){1}.*(kw2){1}.* ... (kwn){1}.*` run at the start of `s` (with
`kws = [kw1, ..., kwn]`): either the next keyword matches here and the
rest continues after it, or one character other than `'\n'` is absorbed
by the gap.  Every recursive call decreases `kws.length + s.length`, so
fuel `kws.length + s.length` always suffices (`matchGap` below). -/
def matchGapAux : Nat → List (List Char) → List Char → Bool
  | _, [], _ => true
  | 0, _ :: _, _ => false
  | n + 1, kw :: kws, s =>
    (startsWithCI kw s && matchGapAux n kws (List.drop kw.length s)) ||
    (match s with
     | [] => false
     | c :: cs => decide (c ≠ '\n') && matchGapAux n (kw :: kws) cs)

/-- `matchGap kws s` is the semantics of the pattern
`.*(kw1){1}.*(kw2){1}.* ... (kwn){1}.*` run at the start of `s`: skip
any characters other than `'\n'`, find the next keyword, and continue;
a trailing `.*` never constrains the rest of the string. -/
def matchGap (kws : List (List Char)) (s : List Char) : Bool :=
  matchGapAux (kws.length + s.length) kws s

/-- `matchKeywords kws s` is `re.match` of the product-name pattern
`(kw1){1}.*(kw2){1}.* ... (kwn){1}.*` against `s`: the first keyword is
anchored at the very start of `s`, each later keyword may be preceded
by a gap of non-newline characters, and the rest of `s` after the last
keyword is unconstrained. -/
def matchKeywords (kws : List (List Char)) (s : List Char) : Bool :=
  match kws with
  | [] => true
  | kw :: rest => startsWithCI kw s && matchGap rest (List.drop kw.length s)

/-- Splitting on the character class `[_-]`, exactly as
`re.split('[_-]', s)`: empty pieces are kept, and the result is never
empty. -/
def splitSep : List Char → List (List Char)
  | [] => [[]]
  | c :: cs =>
    if c == '_' || c == '-' then [] :: splitSep cs
    else
      match splitSep cs with
      | [] => [[c]]
      | k :: ks => (c :: k) :: ks

/-- The keyword list built by `product_name_match`: split the product
name on `[_-]` and uppercase each piece. -/
def keywordsOf (product_name : String) : List (List Char) :=
  (splitSep product_name.data).map (fun kw => kw.map Char.toUpper)

/-- `Product` record of `main.py` (constructor argument order of
`Product.__init__`). -/
structure Product where
  manufacturer : String
  model : String
  product_name : String
  announced_date : String
  family : Option String
deriving DecidableEq, Repr

/-- `Listing` record of `main.py`. -/
structure Listing where
  title : String
  manufacturer : String
  currency : String
  price : String
deriving DecidableEq, Repr

/-- Python string comparison `a < b`: lexicographic by code point,
a strict prefix is smaller. -/
def lexLtb : List Char → List Char → Bool
  | _, [] => false
  | [], _ :: _ => true
  | a :: as, b :: bs =>
    if a < b then true
    else if b < a then false
    else lexLtb as bs

/-- The comparison used to sort candidates in `find_match`:
`a.product_name ≤ b.product_name` in Python's string order. -/
def nameLe (a b : Product) : Bool :=
  !(lexLtb b.product_name.data a.product_name.data)

namespace Matcher

/-- `Matcher.manufacturer_match`: collect, in list order, all brands
whose pattern matches at the start of the listing title
(case-insensitively); return the brand when exactly one matched, else
`None`. -/
def manufacturer_match (manufacturer_list : List String) (listing : Listing) : Option String :=
  let matched_brands :=
    manufacturer_list.filter (fun brand => startsWithCI brand.data listing.title.data)
  match matched_brands with
  | [b] => some b
  | _ => none

/-- `Matcher.product_name_match`: build the keyword pattern from the
product name and run it anchored at the start of the listing title;
return the match flag together with the constant confidence 80. -/
def product_name_match (product : Product) (listing : Listing) : Bool × Nat :=
  (matchKeywords (keywordsOf product.product_name) listing.title.data, 80)

/-- `Matcher.find_match`: sort the candidates by `product_name`
(ascending code-point lexicographic order, stable, as Python `sorted`
with that key — `List.insertionSort` with a total preorder is exactly
the stable ascending sort), keep those whose `product_name_match` flag
is set, and return the last kept candidate (`potential_fits[-1]`), or
`None` when none matched. -/
def find_match (product_list : List Product) (listing : Listing) : Option Product :=
  let sorted_products :=
    List.insertionSort (fun a b => nameLe a b = true) product_list
  let potential_fits :=
    sorted_products.filter (fun p => (product_name_match p listing).1)
  potential_fits.getLast?

end Matcher

/-- One bucket update of `Inventory.add_product`: append the product to
the bucket of its manufacturer, creating the bucket (at the end of the
key order, as a fresh dict key) when absent. -/
def addToIndex (idx : List (String × List Product)) (p : Product) :
    List (String × List Product) :=
  match idx with
  | [] => [(p.manufacturer, [p])]
  | (m, b) :: rest =>
    if m = p.manufacturer then (m, b ++ [p]) :: rest
    else (m, b) :: addToIndex rest p

/-- Lookup in the manufacturer index (first matching key). -/
def indexLookup (idx : List (String × List Product)) (m : String) : Option (List Product) :=
  match idx with
  | [] => none
  | (k, b) :: rest => if k = m then some b else indexLookup rest m

/-- `Inventory` of `main.py`: the flat product list and the
manufacturer-keyed index (a dict, modelled as an association list in
key-insertion order). -/
structure Inventory where
  product_list : List Product
  manufacturer_index : List (String × List Product)
deriving Repr

/-- `Inventory.add_product`. -/
def Inventory.add_product (inv : Inventory) (p : Product) : Inventory :=
  { product_list := inv.product_list ++ [p],
    manufacturer_index := addToIndex inv.manufacturer_index p }

/-- `Inventory.__init__` with a product list: start empty and add each
product in order. -/
def Inventory.ofProducts (ps : List Product) : Inventory :=
  ps.foldl Inventory.add_product { product_list := [], manufacturer_index := [] }

/-- `Inventory.items_by_manufacturer`: `dict.get(manufacturer, [])`. -/
def Inventory.items_by_manufacturer (inv : Inventory) (m : String) : List Product :=
  (indexLookup inv.manufacturer_index m).getD []

/-- Dict assignment `matches[k] = v`: update in place when the key
exists, append otherwise. -/
def matchesInsert (ms : List (String × Product)) (k : String) (v : Product) :
    List (String × Product) :=
  match ms with
  | [] => [(k, v)]
  | (k₀, v₀) :: rest =>
    if k₀ = k then (k₀, v) :: rest else (k₀, v₀) :: matchesInsert rest k v

/-- Dict lookup in the matches mapping. -/
def matchesLookup (ms : List (String × Product)) (k : String) : Option Product :=
  match ms with
  | [] => none
  | (k₀, v₀) :: rest => if k₀ = k then some v₀ else matchesLookup rest k

/-- The body of the reconciliation loop for one listing: resolve the
manufacturer against the index keys, fetch that manufacturer's bucket
(`dict.get` of `None` yields `[]`), skip when the bucket is empty, and
otherwise run `find_match`. -/
def processListing (inv : Inventory) (l : Listing) : Option Product :=
  let inv_manufacturers := inv.manufacturer_index.map Prod.fst
  let listing_manufacturer := Matcher.manufacturer_match inv_manufacturers l
  let potential_items :=
    match listing_manufacturer with
    | none => []
    | some m => inv.items_by_manufacturer m
  if potential_items.isEmpty then none
  else Matcher.find_match potential_items l

/-- The reconciliation driver of the `__main__` block: build the
inventory from the products, then fold over the listings, recording
`matches[listing.title] = matched_item.__dict__` whenever a match is
found. -/
def reconcile (product_list : List Product) (listing_list : List Listing) :
    List (String × Product) :=
  let inventory := Inventory.ofProducts product_list
  listing_list.foldl
    (fun acc listing =>
      match processListing inventory listing with
      | some item => matchesInsert acc listing.title item
      | none => acc)
    []

/-- Spec-side predicate: the brand is a case-insensitive prefix of the
title (both folded with `Char.toUpper`). -/
def ciPrefixCheck (brand title : String) : Bool :=
  (brand.data.map Char.toUpper).isPrefixOf (title.data.map Char.toUpper)

/-- Case-insensitive equality of character lists (both sides folded
with `Char.toUpper`). -/
abbrev CIEq (a b : List Char) : Prop :=
  a.map Char.toUpper = b.map Char.toUpper

/-- A gap the pattern atom `.*` can absorb: no newline characters. -/
abbrev NoNewline (g : List Char) : Prop :=
  ∀ c ∈ g, c ≠ '\n'

/-- Declarative reading of the keyword pattern after the first keyword:
each keyword occurs (case-insensitively) in order, preceded by a
newline-free gap, and the text after the last keyword is
unconstrained. -/
def KeywordsGapSpec : List (List Char) → List Char → Prop
  | [], _ => True
  | kw :: kws, s =>
    ∃ g o r, NoNewline g ∧ CIEq o kw ∧ s = g ++ (o ++ r) ∧ KeywordsGapSpec kws r

/-- Declarative reading of the full anchored keyword pattern: the first
keyword occurs (case-insensitively) at the very start of the string and
the remaining keywords follow as in `KeywordsGapSpec`. -/
def KeywordsAnchoredSpec : List (List Char) → List Char → Prop
  | [], _ => True
  | kw :: kws, s => ∃ o r, CIEq o kw ∧ s = o ++ r ∧ KeywordsGapSpec kws r

theorem matchGapAux_nil (n : Nat) (s : List Char) : matchGapAux n [] s = true := by
  cases n <;> rfl

theorem matchGapAux_congr :
    ∀ (n m : Nat) (kws : List (List Char)) (s : List Char),
      kws.length + s.length ≤ n → kws.length + s.length ≤ m →
      matchGapAux n kws s = matchGapAux m kws s := by
  intro n
  induction n with
  | zero =>
    intro m kws s hn _
    cases kws with
    | nil => rw [matchGapAux_nil, matchGapAux_nil]
    | cons kw kws => simp at hn
  | succ n ih =>
    intro m kws s hn hm
    cases kws with
    | nil => rw [matchGapAux_nil, matchGapAux_nil]
    | cons kw kws =>
      cases m with
      | zero => simp at hm
      | succ m =>
        simp only [List.length_cons] at hn hm
        simp only [matchGapAux]
        congr 1
        · congr 1
          apply ih m kws _ <;> simp [List.length_drop] <;> omega
        · cases s with
          | nil => rfl
          | cons c cs =>
            simp only [List.length_cons] at hn hm
            show (decide (c ≠ '\n') && matchGapAux n (kw :: kws) cs)
              = (decide (c ≠ '\n') && matchGapAux m (kw :: kws) cs)
            congr 1
            apply ih m (kw :: kws) cs <;> simp only [List.length_cons] <;> omega

theorem matchGapAux_succ_nil (n : Nat) (kw : List Char) (kws : List (List Char)) :
    matchGapAux (n + 1) (kw :: kws) [] = (startsWithCI kw [] && matchGapAux n kws []) := by
  simp only [matchGapAux, List.drop_nil, Bool.or_false]

theorem matchGapAux_succ_cons (n : Nat) (kw : List Char) (kws : List (List Char))
    (c : Char) (cs : List Char) :
    matchGapAux (n + 1) (kw :: kws) (c :: cs) =
      ((startsWithCI kw (c :: cs) && matchGapAux n kws (List.drop kw.length (c :: cs))) ||
       (decide (c ≠ '\n') && matchGapAux n (kw :: kws) cs)) := by
  simp only [matchGapAux]

theorem matchGap_nil (s : List Char) : matchGap [] s = true :=
  matchGapAux_nil _ s

theorem matchGap_cons_nil (kw : List Char) (kws : List (List Char)) :
    matchGap (kw :: kws) [] = (startsWithCI kw [] && matchGap kws []) := by
  unfold matchGap
  rw [matchGapAux_congr ((kw :: kws).length + [].length) (kws.length + 1) (kw :: kws) []
    (by simp) (by simp)]
  rw [matchGapAux_succ_nil]
  rfl

theorem matchGap_cons_cons (kw : List Char) (kws : List (List Char)) (c : Char)
    (cs : List Char) :
    matchGap (kw :: kws) (c :: cs) =
      ((startsWithCI kw (c :: cs) && matchGap kws (List.drop kw.length (c :: cs))) ||
       (decide (c ≠ '\n') && matchGap (kw :: kws) cs)) := by
  unfold matchGap
  rw [matchGapAux_congr ((kw :: kws).length + (c :: cs).length)
    ((kws.length + (c :: cs).length) + 1) (kw :: kws) (c :: cs)
    (by simp only [List.length_cons]; omega) (by simp only [List.length_cons]; omega)]
  rw [matchGapAux_succ_cons]
  congr 1
  · congr 1
    apply matchGapAux_congr <;>
      simp only [List.length_drop, List.length_cons] <;> omega
  · congr 1
    apply matchGapAux_congr <;> simp only [List.length_cons] <;> omega

theorem startsWithCI_nil_left (s : List Char) : startsWithCI [] s = true := by
  cases s <;> rfl

theorem ciEq_length {o kw : List Char} (h : CIEq o kw) : o.length = kw.length := by
  simpa using congrArg List.length h

theorem startsWithCI_of_ciEq {kw o : List Char} (h : CIEq o kw) (r : List Char) :
    startsWithCI kw (o ++ r) = true := by
  induction kw generalizing o with
  | nil => exact startsWithCI_nil_left _
  | cons k ks ih =>
    cases o with
    | nil => simp [CIEq] at h
    | cons o₁ os =>
      simp only [CIEq, List.map_cons, List.cons.injEq] at h
      obtain ⟨h1, h2⟩ := h
      simp [startsWithCI, List.cons_append, h1, ih h2]

theorem drop_of_ciEq {kw o : List Char} (h : CIEq o kw) (r : List Char) :
    List.drop kw.length (o ++ r) = r := by
  rw [← ciEq_length h, List.drop_left]

theorem matchGap_here {kw o r : List Char} {kws : List (List Char)}
    (ho : CIEq o kw) (h : matchGap kws r = true) :
    matchGap (kw :: kws) (o ++ r) = true := by
  have h1 : startsWithCI kw (o ++ r) = true := startsWithCI_of_ciEq ho r
  have h2 : List.drop kw.length (o ++ r) = r := drop_of_ciEq ho r
  cases hs : o ++ r with
  | nil =>
    rw [hs] at h1 h2
    have hr : r = [] := by simpa using h2.symm
    rw [hr] at h
    rw [matchGap_cons_nil, h1, h]
    rfl
  | cons c cs =>
    rw [hs] at h1 h2
    rw [matchGap_cons_cons, h1, h2, h]
    rfl

theorem matchGap_skip {c : Char} {cs : List Char} {kws : List (List Char)}
    (hc : c ≠ '\n') (h : matchGap kws cs = true) :
    matchGap kws (c :: cs) = true := by
  cases kws with
  | nil => exact matchGap_nil _
  | cons kw kws' => rw [matchGap_cons_cons, h]; simp [hc]

theorem matchGap_prepend_gap :
    ∀ (g : List Char) {kws : List (List Char)} {s : List Char},
      NoNewline g → matchGap kws s = true → matchGap kws (g ++ s) = true
  | [], _, _, _, h => by simpa using h
  | c :: g', kws, s, hg, h => by
    have htail : matchGap kws (g' ++ s) = true :=
      matchGap_prepend_gap g' (fun x hx => hg x (List.mem_cons_of_mem _ hx)) h
    simpa [List.cons_append] using
      matchGap_skip (hg c (List.mem_cons_self c g')) htail

theorem matchGap_of_spec :
    ∀ (kws : List (List Char)) (s : List Char),
      KeywordsGapSpec kws s → matchGap kws s = true := by
  intro kws
  induction kws with
  | nil => exact fun s _ => matchGap_nil s
  | cons kw kws ih =>
    intro s hs
    obtain ⟨g, o, r, hg, ho, rfl, hrest⟩ := hs
    exact matchGap_prepend_gap g hg (matchGap_here ho (ih r hrest))

theorem matchKeywords_of_spec :
    ∀ {kws : List (List Char)} {s : List Char},
      KeywordsAnchoredSpec kws s → matchKeywords kws s = true := by
  intro kws s h
  cases kws with
  | nil => rfl
  | cons kw rest =>
    obtain ⟨o, r, ho, rfl, hrest⟩ := h
    simp only [matchKeywords]
    rw [startsWithCI_of_ciEq ho, drop_of_ciEq ho]
    simpa using matchGap_of_spec rest r hrest

theorem splitSep_sep_only :
    ∀ (s : List Char), (∀ c ∈ s, c = '_' ∨ c = '-') →
      ∀ kw ∈ splitSep s, kw = ([] : List Char) := by
  intro s
  induction s with
  | nil =>
    intro _ kw hkw
    simpa [splitSep] using hkw
  | cons c cs ih =>
    intro h kw hkw
    have hc : c = '_' ∨ c = '-' := h c (by simp)
    have hsep : (c == '_' || c == '-') = true := by
      rcases hc with h1 | h1 <;> simp [h1]
    simp only [splitSep, hsep, if_true] at hkw
    rcases List.mem_cons.mp hkw with h1 | h1
    · exact h1
    · exact ih (fun x hx => h x (List.mem_cons_of_mem _ hx)) kw h1

theorem matchGap_all_nil :
    ∀ (kws : List (List Char)), (∀ kw ∈ kws, kw = ([] : List Char)) →
      ∀ (s : List Char), matchGap kws s = true := by
  intro kws
  induction kws with
  | nil => exact fun _ s => matchGap_nil s
  | cons kw kws ih =>
    intro h s
    have hkw : kw = [] := h kw (by simp)
    subst hkw
    have ih' := ih (fun x hx => h x (List.mem_cons_of_mem _ hx))
    cases s with
    | nil =>
      rw [matchGap_cons_nil]
      simp [startsWithCI_nil_left, ih' []]
    | cons c cs =>
      rw [matchGap_cons_cons]
      simp [startsWithCI_nil_left, ih' (c :: cs)]

theorem matchKeywords_all_nil {kws : List (List Char)}
    (h : ∀ kw ∈ kws, kw = ([] : List Char)) (s : List Char) :
    matchKeywords kws s = true := by
  cases kws with
  | nil => rfl
  | cons kw rest =>
    have hkw : kw = [] := h kw (by simp)
    subst hkw
    simp only [matchKeywords, startsWithCI_nil_left, List.length_nil, List.drop_zero,
      Bool.true_and]
    exact matchGap_all_nil rest (fun x hx => h x (List.mem_cons_of_mem _ hx)) s

/-- C1 is false as stated: the pattern built by `product_name_match` is
run with `re.match`, so the first keyword must occur at the very start
of the title.  The product name `"Canon"` yields the single keyword
`CANON`; the title `"The Canon"` contains it (case-insensitively, in
order, as a discontinuous subsequence), yet the matcher reports no
match because the title does not start with it. -/
theorem c1_counterexample :
    KeywordsGapSpec (keywordsOf "Canon") "The Canon".data ∧
    (Matcher.product_name_match ⟨"Canon", "A1", "Canon", "2001", none⟩
        ⟨"The Canon", "Canon", "USD", "1.00"⟩).1 = false := by
  constructor
  · rw [show keywordsOf "Canon" = [['C', 'A', 'N', 'O', 'N']] from rfl]
    exact ⟨"The ".data, "Canon".data, [], by decide, by decide, by decide, trivial⟩
  · decide

/-- C1 (amended): for every pattern-safe product name, if the listing
title starts (case-insensitively) with the first keyword of the
product name and the remaining keywords occur afterwards in order,
each separated by a newline-free gap, then `product_name_match`
reports a match. -/
theorem c1_product_name_match_complete (p : Product) (l : Listing)
    (_hsafe : regexSafeStr p.product_name = true)
    (h : KeywordsAnchoredSpec (keywordsOf p.product_name) l.title.data) :
    (Matcher.product_name_match p l).1 = true :=
  matchKeywords_of_spec h

/-- Witness for the amended C1 at the product name "Canon" and the
title "Canon X". -/
theorem c1_witness :
    regexSafeStr "Canon" = true ∧
    (Matcher.product_name_match ⟨"Canon", "A1", "Canon", "2001", none⟩
        ⟨"Canon X", "Canon", "USD", "1.00"⟩).1 = true := by
  refine ⟨by decide, c1_product_name_match_complete _ _ (by decide) ?_⟩
  rw [show keywordsOf "Canon" = [['C', 'A', 'N', 'O', 'N']] from rfl]
  exact ⟨"Canon".data, " X".data, by decide, by decide, trivial⟩

/-- C10: when the product name is empty or consists only of the
separators `_` and `-`, every keyword of the split is the empty string,
the built pattern matches any title, so `product_name_match` reports a
match against every listing; and the returned confidence is the
constant 80 for every product and listing, regardless of the match
outcome. -/
theorem c10_separator_only_name_matches_everything (p : Product) (l : Listing) :
    ((p.product_name.data.all (fun c => c == '_' || c == '-')) = true →
      (Matcher.product_name_match p l).1 = true) ∧
    (Matcher.product_name_match p l).2 = 80 := by
  constructor
  · intro h
    have hsep : ∀ c ∈ p.product_name.data, c = '_' ∨ c = '-' := by
      intro c hc
      have hb := (List.all_eq_true.mp h) c hc
      simpa using hb
    show matchKeywords (keywordsOf p.product_name) l.title.data = true
    apply matchKeywords_all_nil
    intro kw hkw
    simp only [keywordsOf, List.mem_map] at hkw
    obtain ⟨kw0, hkw0, rfl⟩ := hkw
    rw [splitSep_sep_only p.product_name.data hsep kw0 hkw0]
    rfl
  · rfl

/-- Witness for C10 at the product name "_-" and an unrelated title. -/
theorem c10_witness :
    ("_-".data.all (fun c => c == '_' || c == '-')) = true ∧
    (Matcher.product_name_match ⟨"HP", "m", "_-", "d", none⟩
        ⟨"Completely unrelated title", "HP", "USD", "1"⟩).1 = true ∧
    (Matcher.product_name_match ⟨"HP", "m", "_-", "d", none⟩
        ⟨"Completely unrelated title", "HP", "USD", "1"⟩).2 = 80 :=
  ⟨by decide,
   (c10_separator_only_name_matches_everything _ _).1 (by decide),
   (c10_separator_only_name_matches_everything _ _).2⟩

/-- C7: on the single product "Canon_PowerShot_A20" (manufacturer
"Canon") and the listing titled "Canon PowerShot A20 Digital Camera",
the manufacturer resolver returns "Canon", `find_match` returns that
product, and the reconciliation output maps the listing's title to
that product. -/
theorem c7_canon_powershot_example :
    Matcher.manufacturer_match ["Canon"]
        ⟨"Canon PowerShot A20 Digital Camera", "Canon", "USD", "129.99"⟩ = some "Canon" ∧
    Matcher.find_match [⟨"Canon", "A20", "Canon_PowerShot_A20", "2001-01-01", none⟩]
        ⟨"Canon PowerShot A20 Digital Camera", "Canon", "USD", "129.99"⟩
      = some ⟨"Canon", "A20", "Canon_PowerShot_A20", "2001-01-01", none⟩ ∧
    matchesLookup
        (reconcile [⟨"Canon", "A20", "Canon_PowerShot_A20", "2001-01-01", none⟩]
          [⟨"Canon PowerShot A20 Digital Camera", "Canon", "USD", "129.99"⟩])
        "Canon PowerShot A20 Digital Camera"
      = some ⟨"Canon", "A20", "Canon_PowerShot_A20", "2001-01-01", none⟩ :=
  ⟨by decide, by decide, by decide⟩

/-- C6: the reconciliation driver is a pure function of its
(products, listings) input, so running it twice on the same input
yields identical output mappings. -/
theorem c6_reconcile_idempotent (product_list : List Product)
    (listing_list : List Listing) :
    reconcile product_list listing_list = reconcile product_list listing_list := rfl

theorem startsWithCI_eq_isPrefixOf :
    ∀ (bs ts : List Char),
      startsWithCI bs ts = (bs.map Char.toUpper).isPrefixOf (ts.map Char.toUpper) := by
  intro bs
  induction bs with
  | nil => intro ts; rw [startsWithCI_nil_left]; simp
  | cons b bs ih =>
    intro ts
    cases ts with
    | nil => simp [startsWithCI]
    | cons t ts' => simp [startsWithCI, List.isPrefixOf, ih]

/-- C2: for pattern-safe manufacturer names, if exactly one name in the
list is a case-insensitive prefix of the listing title then
`manufacturer_match` returns that name, and if zero or two or more
names are such prefixes it returns `none`. -/
theorem c2_manufacturer_match_unique (ms : List String) (l : Listing)
    (_hsafe : ∀ b ∈ ms, regexSafeStr b = true) :
    ((ms.countP (fun b => ciPrefixCheck b l.title)) = 1 →
       ∀ b ∈ ms, ciPrefixCheck b l.title = true →
         Matcher.manufacturer_match ms l = some b) ∧
    ((ms.countP (fun b => ciPrefixCheck b l.title)) ≠ 1 →
       Matcher.manufacturer_match ms l = none) := by
  have hfe : ms.filter (fun b => startsWithCI b.data l.title.data)
      = ms.filter (fun b => ciPrefixCheck b l.title) := by
    apply List.filter_congr
    intro b _
    rw [startsWithCI_eq_isPrefixOf]
    rfl
  constructor
  · intro h1 b hb hpre
    have hlen : (ms.filter (fun b => ciPrefixCheck b l.title)).length = 1 := by
      rw [← List.countP_eq_length_filter]; exact h1
    obtain ⟨b', hb'⟩ := List.length_eq_one.mp hlen
    have hmem : b ∈ ms.filter (fun b => ciPrefixCheck b l.title) :=
      List.mem_filter.mpr ⟨hb, hpre⟩
    rw [hb'] at hmem
    have hbb : b = b' := by simpa using hmem
    subst hbb
    show (match ms.filter (fun brand => startsWithCI brand.data l.title.data) with
          | [b] => some b
          | _ => none) = some b
    rw [hfe, hb']
  · intro h1
    have hlen : (ms.filter (fun b => ciPrefixCheck b l.title)).length ≠ 1 := by
      rw [← List.countP_eq_length_filter]; exact h1
    show (match ms.filter (fun brand => startsWithCI brand.data l.title.data) with
          | [b] => some b
          | _ => none) = none
    rw [hfe]
    cases hf : ms.filter (fun b => ciPrefixCheck b l.title) with
    | nil => rfl
    | cons x rest =>
      cases rest with
      | nil => exact absurd (by simp [hf]) hlen
      | cons y rest' => rfl

/-- Witness for C2: both "Sony" and "SonyEricsson" are case-insensitive
prefixes of "SonyEricsson W800", so the resolver returns none. -/
theorem c2_witness :
    Matcher.manufacturer_match ["Sony", "SonyEricsson"]
      ⟨"SonyEricsson W800", "Sony Ericsson", "USD", "99"⟩ = none :=
  (c2_manufacturer_match_unique ["Sony", "SonyEricsson"]
    ⟨"SonyEricsson W800", "Sony Ericsson", "USD", "99"⟩ (by decide)).2 (by decide)

theorem lexLtb_iff : ∀ (a b : List Char), lexLtb a b = true ↔ a < b := by
  intro a
  induction a with
  | nil =>
    intro b
    cases b with
    | nil =>
      simp only [lexLtb]
      constructor
      · intro h; exact absurd h Bool.false_ne_true
      · intro h; exact absurd h (List.Lex.not_nil_right _ _)
    | cons y ys =>
      simp only [lexLtb]
      constructor
      · intro _; exact List.nil_lt_cons y ys
      · intro _; trivial
  | cons x xs ih =>
    intro b
    cases b with
    | nil =>
      simp only [lexLtb]
      constructor
      · intro h; exact absurd h Bool.false_ne_true
      · intro h; exact absurd h (List.Lex.not_nil_right _ _)
    | cons y ys =>
      simp only [lexLtb]
      rcases lt_trichotomy x y with hxy | hxy | hxy
      · rw [if_pos hxy]
        constructor
        · intro _; exact List.Lex.rel hxy
        · intro _; rfl
      · subst hxy
        rw [if_neg (lt_irrefl x), if_neg (lt_irrefl x), ih ys]
        constructor
        · intro h; exact List.Lex.cons h
        · intro h; exact List.Lex.cons_iff.mp h
      · rw [if_neg (asymm hxy), if_pos hxy]
        constructor
        · intro h; exact absurd h Bool.false_ne_true
        · intro h
          cases h with
          | cons h' => exact absurd hxy (lt_irrefl _)
          | rel hr => exact absurd hxy (asymm hr)

theorem lexLtb_eq_false_iff (a b : List Char) : lexLtb a b = false ↔ ¬a < b := by
  rw [← lexLtb_iff]
  cases lexLtb a b <;> simp

theorem nameLe_iff (a b : Product) :
    nameLe a b = true ↔ a.product_name ≤ b.product_name := by
  unfold nameLe
  rw [Bool.not_eq_true', lexLtb_eq_false_iff]
  show ¬(b.product_name.toList < a.product_name.toList) ↔ _
  rw [← String.lt_iff_toList_lt]
  exact not_lt

theorem pairwise_getLast?_rel {α : Type} {R : α → α → Prop} :
    ∀ {l : List α} {p : α}, l.Pairwise R → l.getLast? = some p →
      ∀ q ∈ l, q = p ∨ R q p := by
  intro l
  induction l with
  | nil => intro p _ h; simp at h
  | cons x xs ih =>
    intro p hpair hlast q hq
    cases xs with
    | nil =>
      have hx : x = p := by simpa using hlast
      have hqx : q = x := by simpa using hq
      exact Or.inl (hqx.trans hx)
    | cons y ys =>
      have hlast' : (y :: ys).getLast? = some p := by
        simpa [List.getLast?_cons_cons] using hlast
      rcases List.mem_cons.mp hq with rfl | hq'
      · have hp_mem : p ∈ y :: ys := List.mem_of_getLast?_eq_some hlast'
        exact Or.inr ((List.pairwise_cons.mp hpair).1 p hp_mem)
      · exact ih (List.pairwise_cons.mp hpair).2 hlast' q hq'

/-- C3: `find_match` returns `none` exactly when no candidate's
keyword pattern matches; and when it returns a candidate, that
candidate is a matching member of the list whose `product_name` is
lexicographically greatest among all matching candidates — i.e. the
last element of the match-filtered, name-sorted sequence. -/
theorem c3_find_match_best (ps : List Product) (l : Listing)
    (_hsafe : ∀ p ∈ ps, regexSafeStr p.product_name = true) :
    (Matcher.find_match ps l = none ↔
       ∀ p ∈ ps, (Matcher.product_name_match p l).1 = false) ∧
    (∀ p, Matcher.find_match ps l = some p →
       p ∈ ps ∧ (Matcher.product_name_match p l).1 = true ∧
       ∀ q ∈ ps, (Matcher.product_name_match q l).1 = true →
         q.product_name ≤ p.product_name) := by
  haveI htot : IsTotal Product (fun a b => nameLe a b = true) := by
    constructor
    intro a b
    rcases le_total a.product_name b.product_name with h | h
    · exact Or.inl ((nameLe_iff a b).mpr h)
    · exact Or.inr ((nameLe_iff b a).mpr h)
  haveI htrans : IsTrans Product (fun a b => nameLe a b = true) := by
    constructor
    intro a b c hab hbc
    exact (nameLe_iff a c).mpr (le_trans ((nameLe_iff a b).mp hab) ((nameLe_iff b c).mp hbc))
  constructor
  · show (List.filter (fun p => (Matcher.product_name_match p l).1)
        (ps.insertionSort (fun a b => nameLe a b = true))).getLast? = none ↔ _
    rw [List.getLast?_eq_none_iff, List.filter_eq_nil_iff]
    constructor
    · intro h p hp
      have := h p ((List.mem_insertionSort _).mpr hp)
      simpa using this
    · intro h p hp
      have := h p ((List.mem_insertionSort _).mp hp)
      simp [this]
  · intro p hp
    have hp' : (List.filter (fun p => (Matcher.product_name_match p l).1)
        (ps.insertionSort (fun a b => nameLe a b = true))).getLast? = some p := hp
    have hmem := List.mem_of_getLast?_eq_some hp'
    have hmem' := List.mem_filter.mp hmem
    refine ⟨(List.mem_insertionSort _).mp hmem'.1, hmem'.2, ?_⟩
    intro q hq hmq
    have hsorted : (ps.insertionSort (fun a b => nameLe a b = true)).Pairwise
        (fun a b => nameLe a b = true) :=
      List.sorted_insertionSort (fun a b => nameLe a b = true) ps
    have hsorted_f : (List.filter (fun p => (Matcher.product_name_match p l).1)
        (ps.insertionSort (fun a b => nameLe a b = true))).Pairwise
        (fun a b => nameLe a b = true) :=
      List.Pairwise.filter _ hsorted
    have hqmem : q ∈ List.filter (fun p => (Matcher.product_name_match p l).1)
        (ps.insertionSort (fun a b => nameLe a b = true)) :=
      List.mem_filter.mpr ⟨(List.mem_insertionSort _).mpr hq, by simpa using hmq⟩
    rcases pairwise_getLast?_rel hsorted_f hp' q hqmem with rfl | hle
    · exact le_refl _
    · exact (nameLe_iff q p).mp hle

/-- Witness for C3: of the two matching candidates `Sony_A` and
`Sony_A_Pro`, `find_match` returns the one sorting last. -/
theorem c3_witness :
    Matcher.find_match
        [⟨"Sony", "A", "Sony_A", "2001", none⟩, ⟨"Sony", "AP", "Sony_A_Pro", "2001", none⟩]
        ⟨"Sony A Pro camera", "Sony", "USD", "1"⟩
      = some ⟨"Sony", "AP", "Sony_A_Pro", "2001", none⟩ ∧
    (⟨"Sony", "AP", "Sony_A_Pro", "2001", none⟩ : Product)
        ∈ [(⟨"Sony", "A", "Sony_A", "2001", none⟩ : Product),
           ⟨"Sony", "AP", "Sony_A_Pro", "2001", none⟩] ∧
    (Matcher.product_name_match ⟨"Sony", "AP", "Sony_A_Pro", "2001", none⟩
        ⟨"Sony A Pro camera", "Sony", "USD", "1"⟩).1 = true ∧
    ("Sony_A" : String) ≤ "Sony_A_Pro" := by
  have h := (c3_find_match_best
    [⟨"Sony", "A", "Sony_A", "2001", none⟩, ⟨"Sony", "AP", "Sony_A_Pro", "2001", none⟩]
    ⟨"Sony A Pro camera", "Sony", "USD", "1"⟩ (by decide)).2
    ⟨"Sony", "AP", "Sony_A_Pro", "2001", none⟩ (by decide)
  exact ⟨by decide, h.1, h.2.1,
    h.2.2 ⟨"Sony", "A", "Sony_A", "2001", none⟩ (by decide) (by decide)⟩

theorem indexLookup_addToIndex (idx : List (String × List Product)) (p : Product)
    (m : String) :
    indexLookup (addToIndex idx p) m =
      if p.manufacturer = m then some ((indexLookup idx m).getD [] ++ [p])
      else indexLookup idx m := by
  induction idx with
  | nil =>
    by_cases h : p.manufacturer = m
    · simp [addToIndex, indexLookup, h]
    · simp [addToIndex, indexLookup, h]
  | cons e rest ih =>
    obtain ⟨k, b⟩ := e
    by_cases hk : k = p.manufacturer
    · by_cases hm : k = m
      · have hpm : p.manufacturer = m := hk.symm.trans hm
        simp [addToIndex, indexLookup, hk, hm, hpm]
      · have hpm : ¬(p.manufacturer = m) := fun h => hm (hk.trans h)
        simp [addToIndex, indexLookup, hk, hm, hpm]
    · by_cases hm : k = m
      · have hpm : ¬(p.manufacturer = m) := fun h => hk (hm.trans h.symm)
        have hk' : ¬(m = p.manufacturer) := fun h => hk (hm.trans h)
        simp [addToIndex, indexLookup, hk, hk', hm, hpm]
      · simp [addToIndex, indexLookup, hk, hm, ih]

theorem items_by_manufacturer_add (inv : Inventory) (p : Product) (m : String) :
    (inv.add_product p).items_by_manufacturer m =
      if p.manufacturer = m then inv.items_by_manufacturer m ++ [p]
      else inv.items_by_manufacturer m := by
  unfold Inventory.items_by_manufacturer Inventory.add_product
  rw [indexLookup_addToIndex]
  by_cases h : p.manufacturer = m
  · rw [if_pos h, if_pos h]
    cases hidx : indexLookup inv.manufacturer_index m <;> simp
  · rw [if_neg h, if_neg h]

theorem foldl_add_product_items (ps : List Product) :
    ∀ (inv : Inventory) (m : String),
      (ps.foldl Inventory.add_product inv).items_by_manufacturer m =
        inv.items_by_manufacturer m ++ ps.filter (fun p => p.manufacturer == m) := by
  induction ps with
  | nil => intro inv m; simp
  | cons p ps ih =>
    intro inv m
    rw [List.foldl_cons, ih, items_by_manufacturer_add]
    by_cases h : p.manufacturer = m
    · rw [if_pos h, List.filter_cons_of_pos (by simp [h])]
      simp
    · rw [if_neg h, List.filter_cons_of_neg (by simp [h])]

/-- C4: after building the inventory from products `p1..pn`,
`items_by_manufacturer m` is exactly the subsequence of `p1..pn` whose
`manufacturer` field equals the exact key `m`, in insertion order —
and in particular the empty sequence when no product has manufacturer
`m`. -/
theorem c4_items_by_manufacturer (ps : List Product) (m : String) :
    (Inventory.ofProducts ps).items_by_manufacturer m
      = ps.filter (fun p => p.manufacturer == m) := by
  unfold Inventory.ofProducts
  rw [foldl_add_product_items]
  simp [Inventory.items_by_manufacturer, indexLookup]

theorem addToIndex_keys (idx : List (String × List Product)) (p : Product) :
    (addToIndex idx p).map Prod.fst =
      if p.manufacturer ∈ idx.map Prod.fst then idx.map Prod.fst
      else idx.map Prod.fst ++ [p.manufacturer] := by
  induction idx with
  | nil => simp [addToIndex]
  | cons e rest ih =>
    obtain ⟨k, b⟩ := e
    by_cases hk : k = p.manufacturer
    · simp [addToIndex, hk]
    · have hk' : ¬(p.manufacturer = k) := fun h => hk h.symm
      by_cases hmem : p.manufacturer ∈ rest.map Prod.fst
      · simp [addToIndex, hk, hk', hmem, ih]
      · simp [addToIndex, hk, hk', hmem, ih]

theorem mem_keys_addToIndex (idx : List (String × List Product)) (p : Product)
    (x : String) (hx : x ∈ idx.map Prod.fst) :
    x ∈ (addToIndex idx p).map Prod.fst := by
  rw [addToIndex_keys]
  by_cases h : p.manufacturer ∈ idx.map Prod.fst
  · rw [if_pos h]; exact hx
  · rw [if_neg h]; exact List.mem_append_left _ hx

theorem self_mem_keys_addToIndex (idx : List (String × List Product)) (p : Product) :
    p.manufacturer ∈ (addToIndex idx p).map Prod.fst := by
  rw [addToIndex_keys]
  by_cases h : p.manufacturer ∈ idx.map Prod.fst
  · rw [if_pos h]; exact h
  · rw [if_neg h]; simp

theorem nodup_keys_addToIndex (idx : List (String × List Product)) (p : Product)
    (h : (idx.map Prod.fst).Nodup) :
    ((addToIndex idx p).map Prod.fst).Nodup := by
  rw [addToIndex_keys]
  by_cases hm : p.manufacturer ∈ idx.map Prod.fst
  · rw [if_pos hm]; exact h
  · rw [if_neg hm]
    simp [List.nodup_append, h, hm]

theorem addToIndex_entries (p : Product) (pl : List Product) :
    ∀ (idx : List (String × List Product)),
      (idx.map Prod.fst).Nodup →
      (∀ e ∈ idx, e.2 = pl.filter (fun q => q.manufacturer == e.1)) →
      (p.manufacturer ∉ idx.map Prod.fst →
        pl.filter (fun q => q.manufacturer == p.manufacturer) = []) →
      ∀ e ∈ addToIndex idx p,
        e.2 = (pl ++ [p]).filter (fun q => q.manufacturer == e.1) := by
  intro idx
  induction idx with
  | nil =>
    intro _ _ hnew e he
    have he' : e = (p.manufacturer, [p]) := by simpa [addToIndex] using he
    subst he'
    rw [List.filter_append, hnew (by simp)]
    simp
  | cons kb rest ih =>
    obtain ⟨k, b⟩ := kb
    intro hnd h2 hnew e he
    have hnd' : k ∉ rest.map Prod.fst ∧ (rest.map Prod.fst).Nodup := by
      rw [List.map_cons, List.nodup_cons] at hnd
      exact hnd
    by_cases hk : k = p.manufacturer
    · rw [show addToIndex ((k, b) :: rest) p = (k, b ++ [p]) :: rest by
        simp [addToIndex, hk]] at he
      rcases List.mem_cons.mp he with rfl | he'
      · have hb : b = pl.filter (fun q => q.manufacturer == k) := h2 (k, b) (by simp)
        show b ++ [p] = _
        rw [List.filter_append, ← hb]
        simp [hk]
      · have hne : e.1 ≠ k := by
          intro hek
          exact hnd'.1 (hek ▸ List.mem_map_of_mem Prod.fst he')
        rw [h2 e (List.mem_cons_of_mem _ he'), List.filter_append]
        have hp_ne : (p.manufacturer == e.1) = false := by
          rw [beq_eq_false_iff_ne]
          intro hpe
          exact hne (by rw [← hpe, hk])
        simp [hp_ne]
    · rw [show addToIndex ((k, b) :: rest) p = (k, b) :: addToIndex rest p by
        simp [addToIndex, hk]] at he
      rcases List.mem_cons.mp he with rfl | he'
      · rw [h2 (k, b) (by simp), List.filter_append]
        have hp_ne : (p.manufacturer == (k, b).1) = false := by
          rw [beq_eq_false_iff_ne]
          exact fun h => hk h.symm
        simp [hp_ne]
      · apply ih hnd'.2 (fun e' he'' => h2 e' (List.mem_cons_of_mem _ he''))
          _ e he'
        intro hnr
        apply hnew
        simp only [List.map_cons, List.mem_cons]
        rintro (h1 | h1)
        · exact hk h1.symm
        · exact hnr h1

theorem inventory_inv_aux :
    ∀ (ps : List Product) (inv : Inventory),
      (inv.manufacturer_index.map Prod.fst).Nodup →
      (∀ e ∈ inv.manufacturer_index,
         e.2 = inv.product_list.filter (fun q => q.manufacturer == e.1)) →
      (∀ q ∈ inv.product_list, q.manufacturer ∈ inv.manufacturer_index.map Prod.fst) →
      (((ps.foldl Inventory.add_product inv).manufacturer_index.map Prod.fst).Nodup ∧
       (∀ e ∈ (ps.foldl Inventory.add_product inv).manufacturer_index,
          e.2 = (ps.foldl Inventory.add_product inv).product_list.filter
            (fun q => q.manufacturer == e.1)) ∧
       (∀ q ∈ (ps.foldl Inventory.add_product inv).product_list,
          q.manufacturer ∈ (ps.foldl Inventory.add_product inv).manufacturer_index.map
            Prod.fst))
  | [], _, h1, h2, h3 => ⟨h1, h2, h3⟩
  | p :: ps, inv, h1, h2, h3 => by
    rw [List.foldl_cons]
    apply inventory_inv_aux ps
    · exact nodup_keys_addToIndex _ _ h1
    · intro e he
      have hnew : p.manufacturer ∉ inv.manufacturer_index.map Prod.fst →
          inv.product_list.filter (fun q => q.manufacturer == p.manufacturer) = [] := by
        intro hnm
        rw [List.filter_eq_nil_iff]
        intro q hq hbq
        exact hnm (eq_of_beq hbq ▸ h3 q hq)
      exact addToIndex_entries p inv.product_list inv.manufacturer_index h1 h2 hnew e he
    · intro q hq
      rcases List.mem_append.mp hq with hq' | hq'
      · exact mem_keys_addToIndex _ _ _ (h3 q hq')
      · have hqp : q = p := by simpa using hq'
        subst hqp
        exact self_mem_keys_addToIndex _ _

/-- C9: after any sequence of `add_product` operations (the inventory
built from a product list), the manufacturer-index keys are distinct,
every product of `product_list` has a bucket under its own
manufacturer key, and a product belongs to a bucket exactly when that
bucket's key is the product's own `manufacturer` — i.e. every product
appears in exactly one bucket, the one keyed by its manufacturer. -/
theorem c9_index_invariant (ps : List Product) :
    (((Inventory.ofProducts ps).manufacturer_index.map Prod.fst).Nodup) ∧
    (∀ p ∈ (Inventory.ofProducts ps).product_list,
       p.manufacturer ∈ (Inventory.ofProducts ps).manufacturer_index.map Prod.fst) ∧
    (∀ p ∈ (Inventory.ofProducts ps).product_list,
       ∀ e ∈ (Inventory.ofProducts ps).manufacturer_index,
         (p ∈ e.2 ↔ e.1 = p.manufacturer)) := by
  unfold Inventory.ofProducts
  obtain ⟨h1, h2, h3⟩ := inventory_inv_aux ps
    { product_list := [], manufacturer_index := [] } (by simp) (by simp) (by simp)
  refine ⟨h1, h3, ?_⟩
  intro p hp e he
  rw [h2 e he]
  constructor
  · intro hmem
    exact (eq_of_beq (List.mem_filter.mp hmem).2).symm
  · intro heq
    exact List.mem_filter.mpr ⟨hp, by simp [heq]⟩

/-- Witness for C9 on the one-product inventory: the single bucket is
keyed by the product's manufacturer and contains it. -/
theorem c9_witness :
    (((Inventory.ofProducts [⟨"Canon", "A20", "Canon_PowerShot_A20", "2001", none⟩]
        ).manufacturer_index.map Prod.fst).Nodup) ∧
    ((⟨"Canon", "A20", "Canon_PowerShot_A20", "2001", none⟩ : Product) ∈
        (("Canon", [(⟨"Canon", "A20", "Canon_PowerShot_A20", "2001", none⟩ : Product)])
          : String × List Product).2 ↔
      (("Canon", [(⟨"Canon", "A20", "Canon_PowerShot_A20", "2001", none⟩ : Product)])
          : String × List Product).1
        = (⟨"Canon", "A20", "Canon_PowerShot_A20", "2001", none⟩ : Product).manufacturer) :=
  ⟨(c9_index_invariant _).1,
   (c9_index_invariant [⟨"Canon", "A20", "Canon_PowerShot_A20", "2001", none⟩]).2.2
     _ (by decide) _ (by decide)⟩

theorem manufacturer_match_title (ms : List String) (l1 l2 : Listing)
    (h : l1.title = l2.title) :
    Matcher.manufacturer_match ms l1 = Matcher.manufacturer_match ms l2 := by
  unfold Matcher.manufacturer_match
  rw [h]

theorem product_name_match_title (p : Product) (l1 l2 : Listing)
    (h : l1.title = l2.title) :
    Matcher.product_name_match p l1 = Matcher.product_name_match p l2 := by
  unfold Matcher.product_name_match
  rw [h]

theorem find_match_title (ps : List Product) (l1 l2 : Listing)
    (h : l1.title = l2.title) :
    Matcher.find_match ps l1 = Matcher.find_match ps l2 := by
  unfold Matcher.find_match
  simp only [show ∀ p, Matcher.product_name_match p l1 = Matcher.product_name_match p l2
    from fun p => product_name_match_title p l1 l2 h]

theorem processListing_title (inv : Inventory) (l1 l2 : Listing)
    (h : l1.title = l2.title) :
    processListing inv l1 = processListing inv l2 := by
  simp only [processListing]
  rw [manufacturer_match_title (inv.manufacturer_index.map Prod.fst) l1 l2 h]
  simp only [show ∀ ps, Matcher.find_match ps l1 = Matcher.find_match ps l2
    from fun ps => find_match_title ps l1 l2 h]

theorem matchesLookup_insert_ne (ms : List (String × Product)) (k t : String)
    (v : Product) (h : k ≠ t) :
    matchesLookup (matchesInsert ms k v) t = matchesLookup ms t := by
  induction ms with
  | nil => simp [matchesInsert, matchesLookup, h]
  | cons e rest ih =>
    obtain ⟨k0, v0⟩ := e
    by_cases hk : k0 = k
    · have hk0t : ¬(k0 = t) := fun he => h (hk.symm.trans he)
      simp [matchesInsert, matchesLookup, hk, hk0t, h]
    · by_cases hk0t : k0 = t
      · have htk : ¬(t = k) := fun he => h he.symm
        simp [matchesInsert, matchesLookup, hk, hk0t, htk]
      · simp [matchesInsert, matchesLookup, hk, hk0t, ih]

theorem reconcile_fold_no_title (inv : Inventory) :
    ∀ (ls : List Listing) (acc : List (String × Product)) (t : String),
      (∀ l' ∈ ls, l'.title = t → processListing inv l' = none) →
      matchesLookup acc t = none →
      matchesLookup
        (ls.foldl (fun acc listing =>
          match processListing inv listing with
          | some item => matchesInsert acc listing.title item
          | none => acc) acc) t = none := by
  intro ls
  induction ls with
  | nil => intro acc t _ hacc; simpa using hacc
  | cons l ls ih =>
    intro acc t hnone hacc
    rw [List.foldl_cons]
    apply ih _ _ (fun l' hl' => hnone l' (List.mem_cons_of_mem _ hl'))
    cases hp : processListing inv l with
    | none => simpa [hp] using hacc
    | some item =>
      have hne : l.title ≠ t := by
        intro he
        have hcontra := hnone l (List.mem_cons_self _ _) he
        rw [hcontra] at hp
        cases hp
      simp only [hp]
      rw [matchesLookup_insert_ne _ _ _ _ hne]
      exact hacc

/-- C5: if a listing's per-listing processing ends with no match —
its manufacturer does not resolve to exactly one name (the candidate
fetch of `None` yields `[]`), or the resolved manufacturer's candidate
bucket is empty, or no candidate passes keyword matching — then the
reconciliation output contains no entry for that listing's title; in
the embedding every such outcome is an ordinary value, not an
exception. -/
theorem c5_no_match_no_entry (ps : List Product) (ls : List Listing) (l : Listing)
    (_hmem : l ∈ ls)
    (hnone : processListing (Inventory.ofProducts ps) l = none) :
    matchesLookup (reconcile ps ls) l.title = none := by
  unfold reconcile
  apply reconcile_fold_no_title
  · intro l' _ ht
    rw [processListing_title _ l' l ht]
    exact hnone
  · rfl

/-- Witness for C5: a listing whose manufacturer is unknown to the
catalog produces no entry. -/
theorem c5_witness :
    matchesLookup
      (reconcile [⟨"Canon", "A20", "Canon_PowerShot_A20", "2001", none⟩]
        [⟨"Sony Walkman", "Sony", "USD", "5"⟩])
      "Sony Walkman" = none :=
  c5_no_match_no_entry [⟨"Canon", "A20", "Canon_PowerShot_A20", "2001", none⟩]
    [⟨"Sony Walkman", "Sony", "USD", "5"⟩] ⟨"Sony Walkman", "Sony", "USD", "5"⟩
    (by decide) (by decide)

/-- C8: the per-listing reconciliation outcome depends only on the
listing's title among the listing's fields — two listings with equal
titles but different self-reported manufacturer, currency or price get
the same result, both per listing and in the full output mapping. -/
theorem c8_title_determines (ps : List Product) (l1 l2 : Listing)
    (h : l1.title = l2.title) :
    processListing (Inventory.ofProducts ps) l1
      = processListing (Inventory.ofProducts ps) l2 ∧
    ∀ (pre post : List Listing),
      reconcile ps (pre ++ l1 :: post) = reconcile ps (pre ++ l2 :: post) := by
  refine ⟨processListing_title _ l1 l2 h, ?_⟩
  intro pre post
  unfold reconcile
  rw [List.foldl_append, List.foldl_append, List.foldl_cons, List.foldl_cons]
  rw [processListing_title (Inventory.ofProducts ps) l1 l2 h, h]

/-- Witness for C8: same title, different manufacturer, currency and
price fields give the same reconciliation result for the listing. -/
theorem c8_witness :
    processListing
        (Inventory.ofProducts [⟨"Canon", "A20", "Canon_PowerShot_A20", "2001", none⟩])
        ⟨"Canon PowerShot A20", "Canon", "USD", "100"⟩
      = processListing
        (Inventory.ofProducts [⟨"Canon", "A20", "Canon_PowerShot_A20", "2001", none⟩])
        ⟨"Canon PowerShot A20", "SomeOtherVendor", "EUR", "9"⟩ :=
  (c8_title_determines [⟨"Canon", "A20", "Canon_PowerShot_A20", "2001", none⟩]
    ⟨"Canon PowerShot A20", "Canon", "USD", "100"⟩
    ⟨"Canon PowerShot A20", "SomeOtherVendor", "EUR", "9"⟩ rfl).1
